import Mathlib

/-!
Shallow embedding of the syscall-table extraction core of systrack
(`src/systrack/kernel.py`) and proofs of behavioural claims about it.

Python integers are modelled as `Nat`/`Int` (Python integers are
unbounded, so no wrap-around modelling is needed), the ELF symbol and
section tables and the architecture profile are passed in as explicit
data, and Python exceptions escaping `Kernel.__extract_syscalls` /
`Kernel.version` are modelled with `Except String`.

The out-of-scope collaborators (the ELF accessor `elf.py`, the
architecture profiles `arch.py`, the enrichment collaborators
`location.py`/`signature.py` and the kconfig tables, none of which are
part of the verified core) enter as uninterpreted data and functions
bundled in `ExtractEnv`; every theorem below holds for all of their
instantiations.
-/

namespace Systrack

/-- An ELF symbol as exposed by `elf.py`: name, virtual address, declared
size and ELF symbol type (the `typ` field models the Python `type`
attribute, a string such as "FUNC" or "OBJECT"). -/
structure Symbol where
  name : String
  vaddr : Nat
  size : Nat
  typ : String
deriving DecidableEq, Repr

/-- An ELF section as exposed by `elf.py`: virtual address and size. -/
structure ElfSection where
  name : String
  vaddr : Nat
  size : Nat
deriving DecidableEq, Repr

/-- A version tuple `(a, b)` or `(a, b, c)` (`type_hints.KernelVersion`);
the third component is `none` for two-component versions. -/
abbrev KernelVersion := Nat × Nat × Option Nat

/-- A syscall record (`syscall.Syscall`).  Identity fields are set on
construction in `Kernel.__extract_syscalls`; `file`, `line`,
`good_location` and `signature` are the enrichment fields filled in
later by the enrichment collaborators.  The Python constructor calls are
`Syscall(idx, num, name, origname, sym, kdeps)` for table slots and
`Syscall(None, num, name, name, sym, None, signature=sig, esoteric=True)`
for hardcoded entries. -/
structure Syscall where
  idx : Option Nat
  num : Nat
  name : String
  origname : String
  symbol : Symbol
  kdeps : Option (List String)
  signature : Option String
  esoteric : Bool
  file : Option String
  line : Option Nat
  good_location : Bool
deriving DecidableEq, Repr

/-- One hardcoded/esoteric syscall entry `(num, name, sym_name, sig)` as
stored in `self.arch.esoteric_syscalls[self.version]` (kernel.py line
414-419). -/
structure EsoEntry where
  num : Nat
  name : String
  symName : String
  sig : Option String
deriving DecidableEq, Repr

/-- The per-syscall result of the enrichment collaborators
(`extract_syscall_locations` / `extract_syscall_signatures`, kernel.py
lines 430-431): the values they store into the `file`, `line`,
`good_location` and `signature` fields of one syscall.  The collaborators
themselves live outside the verified core; per spec section 6 they
populate these fields in place and must not add or remove entries, which
is exactly what applying `enrichWith` pointwise models. -/
structure Enrichment where
  file : Option String
  line : Option Nat
  good : Bool
  sig : Option String
deriving DecidableEq, Repr

/-- Applying the enrichment collaborators to one syscall: only the four
enrichment fields change.  Esoteric syscalls are excluded (kernel.py
lines 428-429: locations and signatures are found "for all the syscalls
we found (except esoteric ones)"; their signature is hardcoded). -/
def enrichWith (e : Syscall → Enrichment) (sc : Syscall) : Syscall :=
  if sc.esoteric then sc
  else
    { sc with
      file := (e sc).file, line := (e sc).line,
      good_location := (e sc).good, signature := (e sc).sig }

/-! ## Table Unpacker (`Kernel.__unpack_syscall_table`, kernel.py 188-237) -/

/-- The boundary set of the adaptive decoding loop (kernel.py lines
216-218): the virtual addresses of all non-"FUNC" symbols, with the
table's own address discarded.  The Python code builds a `set`; a list
with the same membership is used here. -/
def boundaries_of (syms : List Symbol) (tblVaddr : Nat) : List Nat :=
  ((syms.filter (fun s => s.typ ≠ "FUNC")).map (fun s => s.vaddr)).filter
    (fun v => v ≠ tblVaddr)

/-- The adaptive decoding loop (kernel.py lines 215-232), used when the
table symbol's declared size is implausible.  `words` is the stream of
pointer-width words of the file starting at the table's file offset (the
Python code unpacks them lazily with `__iter_unpack_vmlinux_long`; the
file is finite, so a finite list models the stream).  One word is read
per step; decoding stops at the first word outside
`[vstart, vend)`, or when the advancing slot cursor hits a boundary
address.  As in the Python loop, the range test is performed before the
boundary test. -/
def unpack_adaptive (ls vstart vend : Nat) (bnd : List Nat) :
    Nat → List Nat → List Nat
  | _, [] => []
  | cur, w :: rest =>
    if vstart ≤ w ∧ w < vend then
      if cur ∈ bnd then []
      else w :: unpack_adaptive ls vstart vend bnd (cur + ls) rest
    else []

/-- `Kernel.__unpack_syscall_table` (kernel.py lines 188-237).  `ls` is
the pointer width `self.__long_size`, `syms` the symbol table used to
compute the adaptive-mode boundaries.  Strict branch (`tbl.size > 0x80`):
`struct.iter_unpack` over the `tbl.size` bytes read at the table's file
offset yields `tbl.size / ls` words; the per-entry range check there only
logs a warning and never drops an entry.  Otherwise the adaptive loop
runs from the table's own virtual address.  (The strict branch assumes
the file holds `tbl.size` bytes and that `tbl.size` is a multiple of
`ls`; otherwise the Python code raises `struct.error`.) -/
def unpack_syscall_table (tbl : Symbol) (target : ElfSection)
    (words : List Nat) (ls : Nat) (syms : List Symbol) : List Nat :=
  if tbl.size > 0x80 then
    words.take (tbl.size / ls)
  else
    unpack_adaptive ls target.vaddr (target.vaddr + target.size)
      (boundaries_of syms tbl.vaddr) tbl.vaddr words

/-! ## Symbol Resolver & Collision Arbiter (kernel.py 306-334) -/

/-- Pointwise update of a `Nat`-keyed map, modelling one Python dict
assignment `d[k] = v`. -/
def fupd (m : Nat → Option Symbol) (k : Nat) (v : Symbol) :
    Nat → Option Symbol :=
  fun x => if x = k then some v else m x

/-- One iteration of the resolution loop (kernel.py lines 311-332) for
symbol `sym`: skip symbols whose address is not in the decoded sequence;
skip if the same symbol is already assigned; never displace an assigned
`ni_syscall` placeholder by a non-placeholder; otherwise let the
architecture profile `pref` break the tie. -/
def arbStep (ni : List Symbol) (pref : Symbol → Symbol → Symbol)
    (seen : List Nat) (m : Nat → Option Symbol) (sym : Symbol) :
    Nat → Option Symbol :=
  if sym.vaddr ∈ seen then
    match m sym.vaddr with
    | none => fupd m sym.vaddr sym
    | some other =>
      if sym = other then m
      else if other ∈ ni ∧ sym ∉ ni then m
      else fupd m sym.vaddr (pref sym other)
  else m

/-- The `symbols_by_vaddr` map built in kernel.py lines 306-332: it is
pre-populated with `{sym.vaddr: sym for sym in ni_syscalls}` and then the
resolution loop runs over all symbols of the image (`syms`, in the
iteration order of `self.vmlinux.symbols.values()`).  `seen` is
`set(vaddrs)`, queried only through membership. -/
def symbols_by_vaddr (ni : List Symbol) (pref : Symbol → Symbol → Symbol)
    (seen : List Nat) (syms : List Symbol) : Nat → Option Symbol :=
  syms.foldl (arbStep ni pref seen)
    (ni.foldl (fun m s => fupd m s.vaddr s) (fun _ => none))

/-- `counts[0][0]` of kernel.py line 344: the most frequent address of the
decoded sequence; among equally frequent addresses, `Counter` iterates
keys in first-occurrence order and `sorted` is stable, so the earliest
first occurrence wins.  Folding over the sequence itself with a strictly
greater count as the replacement condition computes the same value,
since duplicate occurrences never have a strictly greater count than the
first one. -/
def most_frequent (l : List Nat) : Option Nat :=
  l.foldl
    (fun acc v =>
      match acc with
      | none => some v
      | some b => if l.count v > l.count b then some v else acc)
    none

/-! ## Name/Number Normalizer and pipeline (kernel.py 359-504) -/

/-- Everything `Kernel.__extract_syscalls` consumes from outside the
verified core, plus the image data it walks over.  The function-valued
fields are the out-of-scope collaborators (spec section 6): `symtab` is
the name-to-symbol dict `self.vmlinux.symbols`, `functions` the value
list of `self.vmlinux.functions`, `symsList` the value list of
`self.vmlinux.symbols`; `isNi` is `arch.symbol_is_ni_syscall`, `pref`
`arch.preferred_symbol`, `base` `arch.syscall_num_base`, `noPfx` the
composite `noprefix(-, *prefixes)` with the detected common prefixes,
`trans` `arch.translate_syscall_symbol_name`, `nrm`
`arch.normalize_syscall_name`, `kdeps` `kconfig_syscall_deps(-, version)`,
`skip` `arch.skip_syscall`, `eso` `arch.esoteric_syscalls[version]`,
`enrich` the enrichment collaborators, `isDummy`
`arch.is_dummy_syscall(-, vmlinux)` and `matchNi` the
`file.match('**/kernel/sys_ni.c')` test of the implementation filter. -/
structure ExtractEnv where
  functions : List Symbol
  symsList : List Symbol
  symtab : String → Option Symbol
  isNi : Symbol → Bool
  pref : Symbol → Symbol → Symbol
  base : Nat
  noPfx : String → String
  trans : String → String
  nrm : String → String
  kdeps : String → Option (List String)
  skip : Syscall → Bool
  eso : List EsoEntry
  enrich : Syscall → Enrichment
  isDummy : Syscall → Bool
  matchNi : String → Bool

/-- The `ni_syscalls` set (kernel.py lines 297-300): all function symbols
the architecture profile classifies as not-implemented placeholders. -/
def niSet (E : ExtractEnv) : List Symbol :=
  E.functions.filter (fun s => E.isNi s)

/-- The address-to-symbol map of one extraction run. -/
def resolved_map (E : ExtractEnv) (vaddrs : List Nat) : Nat → Option Symbol :=
  symbols_by_vaddr (niSet E) E.pref vaddrs E.symsList

/-- The slot-filtering loop of kernel.py lines 364-379, carrying the
running `enumerate` index `i`: slots whose address resolves to no symbol
are dropped (with an error logged), slots resolving to a placeholder are
dropped (counted by `ni_count`), the rest are kept as `(idx, sym)`
pairs. -/
def defined_symbols_from (r : Nat → Option Symbol) (ni : List Symbol) :
    Nat → List Nat → List (Nat × Symbol)
  | _, [] => []
  | i, v :: vs =>
    match r v with
    | none => defined_symbols_from r ni (i + 1) vs
    | some s =>
      if s ∈ ni then defined_symbols_from r ni (i + 1) vs
      else (i, s) :: defined_symbols_from r ni (i + 1) vs

/-- The `symbols` list of kernel.py lines 359-379 (paired with the slot
index of each kept entry). -/
def defined_symbols (r : Nat → Option Symbol) (ni : List Symbol)
    (vaddrs : List Nat) : List (Nat × Symbol) :=
  defined_symbols_from r ni 0 vaddrs

/-- `ni_total` (kernel.py lines 421-424): the `ni_count` dict counts, per
placeholder name, the slots resolving to it; `ni_total` is the sum over
all names, i.e. the number of slots whose address resolves to a
placeholder. -/
def ni_total (r : Nat → Option Symbol) (ni : List Symbol)
    (vaddrs : List Nat) : Nat :=
  vaddrs.countP (fun v =>
    match r v with
    | some s => decide (s ∈ ni)
    | none => false)

/-- Construction of one table-derived syscall (kernel.py lines 391-403):
number is the numbering base plus the slot index, the symbol name is
prefix-stripped then translated, the result normalized, and the kconfig
dependency lookup by normalized name falls back to the pre-normalization
name when the first lookup is falsy (`if not kdeps:` — `None` or an
empty list). -/
def build_entry (E : ExtractEnv) (i : Nat) (sym : Symbol) : Syscall :=
  let origname := E.trans (E.noPfx sym.name)
  let name := E.nrm origname
  let kd :=
    match E.kdeps name with
    | none => E.kdeps origname
    | some [] => E.kdeps origname
    | some ks => some ks
  { idx := some i, num := E.base + i, name := name, origname := origname,
    symbol := sym, kdeps := kd, signature := none, esoteric := false,
    file := none, line := none, good_location := false }

/-- The syscall-building loop of kernel.py lines 391-410: build each kept
slot's syscall and drop (counting them) the ones the architecture
profile says to skip. -/
def build_syscalls (E : ExtractEnv) : List (Nat × Symbol) → List Syscall
  | [] => []
  | (i, s) :: rest =>
    if E.skip (build_entry E i s) then build_syscalls E rest
    else build_entry E i s :: build_syscalls E rest

/-- The `n_skipped` counter of the same loop. -/
def n_skipped (E : ExtractEnv) (l : List (Nat × Symbol)) : Nat :=
  l.countP (fun p => E.skip (build_entry E p.1 p.2))

/-- The table-derived syscalls of one run, in slot order. -/
def table_syscalls (E : ExtractEnv) (vaddrs : List Nat) : List Syscall :=
  build_syscalls E (defined_symbols (resolved_map E vaddrs) (niSet E) vaddrs)

/-- One hardcoded syscall record (kernel.py line 419). -/
def mk_esoteric (t : EsoEntry) (sym : Symbol) : Syscall :=
  { idx := none, num := t.num, name := t.name, origname := t.name,
    symbol := sym, kdeps := none, signature := t.sig, esoteric := true,
    file := none, line := none, good_location := false }

/-- The esoteric-syscall loop of kernel.py lines 417-419.  The backing
symbol is looked up with `self.vmlinux.symbols[sym_name]`, a plain dict
subscript: a missing name raises `KeyError`, which no surrounding code
catches. -/
def add_esoteric (symtab : String → Option Symbol) :
    List EsoEntry → Except String (List Syscall)
  | [] => .ok []
  | t :: rest =>
    match symtab t.symName with
    | none => .error ("KeyError: " ++ t.symName)
    | some sym =>
      match add_esoteric symtab rest with
      | .error e => .error e
      | .ok l => .ok (mk_esoteric t sym :: l)

/-- The `syscalls` list right after normalization and the esoteric
additions (kernel.py lines 359-419), i.e. before enrichment and the
implementation filter. -/
def normalized_syscalls (E : ExtractEnv) (vaddrs : List Nat) :
    Except String (List Syscall) :=
  match add_esoteric E.symtab E.eso with
  | .error e => .error e
  | .ok esoScs =>
    .ok (table_syscalls E vaddrs ++ esoScs)

/-- The keep-condition of the implementation filter (kernel.py lines
440-493): a non-esoteric syscall is dropped when the architecture
profile classifies it as a dummy implementation, or when its location is
not good and its file resolves to `**/kernel/sys_ni.c`; everything else
(including every esoteric syscall) is kept.  The `bad_loc_info`,
`no_loc_info` and `no_sig_info` lists of the same loop only feed
diagnostics and never drop an entry. -/
def keep_syscall (isDummy : Syscall → Bool) (matchNi : String → Bool)
    (sc : Syscall) : Bool :=
  if !sc.esoteric then
    if isDummy sc then false
    else
      match sc.file with
      | some f => if !sc.good_location && matchNi f then false else true
      | none => true
  else true

/-- The implementation filter (kernel.py lines 435-504): the `implemented`
list retains, in order, the syscalls passing `keep_syscall`. -/
def implFilter (isDummy : Syscall → Bool) (matchNi : String → Bool)
    (scs : List Syscall) : List Syscall :=
  scs.filter (keep_syscall isDummy matchNi)

/-- `Kernel.__extract_syscalls` from the decoded address sequence onwards
(kernel.py lines 288-504).  The earlier guards of the method (bit-width
mismatch, missing table symbol, descriptor translation) precede the
production of `vaddrs` and return `[]` on failure just like the first
two guards here.  Notes on fidelity:
  * line 288: no decoded address at all returns `[]`;
  * lines 302-304: an empty placeholder set returns `[]`;
  * lines 336-340: the emptiness check on `symbols_by_vaddr` is
    unreachable at this point, because the dict is pre-populated from
    the (here nonempty) placeholder set;
  * lines 344-350: the frequency sanity check indexes
    `symbols_by_vaddr[counts[0][0]]` with a plain dict subscript; if the
    most frequent address resolved to no symbol this raises an uncaught
    `KeyError` (`counts[0]` itself cannot fail since `vaddrs` is
    nonempty).  The remainder of that check only logs;
  * line 426: the count assertion; on failure Python raises
    `AssertionError`;
  * lines 430-431: enrichment, applied pointwise;
  * lines 435-504: the implementation filter. -/
def extract_syscalls (E : ExtractEnv) (vaddrs : List Nat) :
    Except String (List Syscall) :=
  if vaddrs = [] then .ok []
  else if niSet E = [] then .ok []
  else
    match most_frequent vaddrs with
    | none => .error "IndexError"
    | some mv =>
      match resolved_map E vaddrs mv with
      | none => .error "KeyError: most frequent vaddr unresolved"
      | some _ =>
        match normalized_syscalls E vaddrs with
        | .error e => .error e
        | .ok scs =>
          if (scs.length : Int)
              = (vaddrs.length : Int)
                - (ni_total (resolved_map E vaddrs) (niSet E) vaddrs : Int)
                - (n_skipped E
                    (defined_symbols (resolved_map E vaddrs) (niSet E)
                      vaddrs) : Int)
                + (E.eso.length : Int) then
            .ok (implFilter E.isDummy E.matchNi
              (scs.map (enrichWith E.enrich)))
          else .error "AssertionError"

/-! ## Version Detector and cached state (kernel.py 39-45, 121-135,
561-567, 594-596) -/

/-- The cached state of a `Kernel` object relevant to the claims:
`__version`, `__version_source` and `__syscalls` (kernel.py lines
39-45).  The remaining attributes (ELF handle, Makefile backup, word
size) do not participate in the claims. -/
structure KernelState where
  version : Option KernelVersion
  versionSource : Option String
  syscalls : Option (List Syscall)
deriving DecidableEq, Repr

/-- The `Kernel.version` property (kernel.py lines 121-135).  `vmV` is
`some r` when a vmlinux image was supplied, with `r` the result of
`__version_from_vmlinux()` (`none` when the banner is missing or
unparseable); `mkV` is `some r` when a source tree was supplied, with
`r` the result of `__version_from_make()`.  With no cached version the
image is consulted first; the build tool is consulted only in the
`elif` branch, i.e. only when no image was supplied.  A still-missing
version raises `KernelVersionError`. -/
def version_get (vmV mkV : Option (Option KernelVersion)) (s : KernelState) :
    Except String KernelVersion × KernelState :=
  let vs : Option KernelVersion × Option String :=
    match s.version with
    | some v => (some v, s.versionSource)
    | none =>
      match vmV with
      | some r => (r, some "vmlinux")
      | none =>
        match mkV with
        | some r => (r, some "make")
        | none => (none, s.versionSource)
  match vs.1 with
  | some v => (.ok v, { s with version := some v, versionSource := vs.2 })
  | none => (.error "KernelVersionError",
      { s with version := none, versionSource := vs.2 })

/-- The `Kernel.syscalls` property (kernel.py lines 165-169): return the
cached list when present; otherwise run extraction (whose result is the
`extracted` argument) and cache it. -/
def syscalls_get (extracted : List Syscall) (s : KernelState) :
    List Syscall × KernelState :=
  match s.syscalls with
  | some l => (l, s)
  | none => (extracted, { s with syscalls := some extracted })

/-- Cache effect of `Kernel.clean` (kernel.py lines 561-563): the cached
version is reset; `make distclean` acts on the source tree, not on the
cached state modelled here. -/
def clean (s : KernelState) : KernelState :=
  { s with version := none }

/-- Cache effect of `Kernel.configure` (kernel.py lines 565-592): the
cached version is reset; the make targets and config edits act on the
source tree. -/
def configure (s : KernelState) : KernelState :=
  { s with version := none }

/-- Cache effect of `Kernel.build` (kernel.py lines 594-627): the cached
version is reset; the build itself acts on the source tree. -/
def build (s : KernelState) : KernelState :=
  { s with version := none }

/-! ## Concrete test fixtures used to instantiate the theorems -/

/-- A placeholder symbol. -/
def symNiW : Symbol := ⟨"sys_ni_syscall", 100, 4, "FUNC"⟩

/-- A regular syscall symbol. -/
def symReadW : Symbol := ⟨"sys_read", 200, 4, "FUNC"⟩

/-- Another regular syscall symbol. -/
def symWriteW : Symbol := ⟨"sys_write", 300, 4, "FUNC"⟩

/-- The backing symbol of a hardcoded/esoteric entry. -/
def symEsoW : Symbol := ⟨"sys_eso", 400, 4, "FUNC"⟩

/-- A non-placeholder alias sharing the placeholder's address. -/
def aliasW : Symbol := ⟨"alias_of_ni", 100, 4, "FUNC"⟩

/-- A small name-to-symbol table. -/
def symtabW : String → Option Symbol := fun n =>
  if n = "sys_ni_syscall" then some symNiW
  else if n = "sys_read" then some symReadW
  else if n = "sys_write" then some symWriteW
  else if n = "sys_eso" then some symEsoW
  else none

/-- A small, fully well-behaved extraction environment: one placeholder,
two real syscalls, one esoteric entry; no skips, no dummies, trivial
name handling. -/
def envW : ExtractEnv :=
  { functions := [symNiW, symReadW, symWriteW, symEsoW]
    symsList := [symNiW, symReadW, symWriteW, symEsoW]
    symtab := symtabW
    isNi := fun s => s.name = "sys_ni_syscall"
    pref := fun a _ => a
    base := 0
    noPfx := fun n => n
    trans := fun n => n
    nrm := fun n => n
    kdeps := fun _ => none
    skip := fun _ => false
    eso := [⟨5000, "eso", "sys_eso", some "int eso(int a)"⟩]
    enrich := fun _ => ⟨some "fs/read_write.c", some 10, true, some "int fd"⟩
    isDummy := fun _ => false
    matchNi := fun _ => false }

/-- `envW` with the esoteric entry's backing symbol removed from the
symbol table. -/
def envB : ExtractEnv :=
  { envW with symtab := fun n => if n = "sys_eso" then none else symtabW n }

/-- The normalized syscall list of the well-behaved run. -/
def normW : List Syscall :=
  match normalized_syscalls envW [100, 200, 300] with
  | .ok l => l
  | .error _ => []

/-- The final output of the well-behaved run. -/
def outW : List Syscall :=
  match extract_syscalls envW [100, 200, 300] with
  | .ok l => l
  | .error _ => []

/-- A cached syscall record for the state-machine fixture. -/
def scW : Syscall := build_entry envW 1 symReadW

/-- A kernel state with both caches populated. -/
def stateW : KernelState :=
  ⟨some (6, 1, none), some "vmlinux", some [scW]⟩

/-- A table symbol with a plausible (per the code: greater than 0x80
bytes) declared size of 0x88 = 136 bytes, i.e. 17 eight-byte slots. -/
def tblStrictW : Symbol := ⟨"sys_call_table", 4096, 0x88, "OBJECT"⟩

/-- A word stream long enough for the strict decode of `tblStrictW`. -/
def wordsW : List Nat := List.replicate 17 150

/-- A size-0 table symbol forcing adaptive mode. -/
def tblAW : Symbol := ⟨"sys_call_table", 1000, 0, "OBJECT"⟩

/-- A second, adjacent non-function table symbol two slots after
`tblAW`: an adaptive-mode boundary. -/
def otherTblW : Symbol := ⟨"compat_sys_call_table", 1016, 0, "OBJECT"⟩

/-! ## Helper lemmas: the adaptive decoding loop -/

/-- The adaptive loop returns a prefix of the word stream. -/
theorem adaptive_front (ls vs ve : Nat) (bnd : List Nat) :
    ∀ (words : List Nat) (cur : Nat),
      unpack_adaptive ls vs ve bnd cur words
        = words.take (unpack_adaptive ls vs ve bnd cur words).length := by
  intro words
  induction words with
  | nil => intro cur; rfl
  | cons w rest ih =>
    intro cur
    simp only [unpack_adaptive]
    by_cases hr : vs ≤ w ∧ w < ve
    · rw [if_pos hr]
      by_cases hb : cur ∈ bnd
      · rw [if_pos hb]; rfl
      · rw [if_neg hb]
        simp only [List.length_cons, List.take_succ_cons, List.cons.injEq,
          true_and]
        exact ih (cur + ls)
    · rw [if_neg hr]; rfl

/-- Every decoded word of the adaptive loop is in range, and no visited
slot address (other than the starting one, whose index is 0) is in the
boundary set. -/
theorem adaptive_elems (ls vs ve : Nat) (bnd : List Nat) :
    ∀ (words : List Nat) (cur : Nat) (k : Nat),
      k < (unpack_adaptive ls vs ve bnd cur words).length →
      (vs ≤ words.getD k 0 ∧ words.getD k 0 < ve)
        ∧ (cur + k * ls) ∉ bnd := by
  intro words
  induction words with
  | nil => intro cur k hk; simp [unpack_adaptive] at hk
  | cons w rest ih =>
    intro cur k hk
    simp only [unpack_adaptive] at hk
    by_cases hr : vs ≤ w ∧ w < ve
    · rw [if_pos hr] at hk
      by_cases hb : cur ∈ bnd
      · rw [if_pos hb] at hk; simp at hk
      · rw [if_neg hb] at hk
        simp only [List.length_cons] at hk
        cases k with
        | zero =>
          constructor
          · simpa using hr
          · simpa using hb
        | succ k =>
          have hk' : k < (unpack_adaptive ls vs ve bnd (cur + ls) rest).length := by
            omega
          have h := ih (cur + ls) k hk'
          have harith : cur + (k + 1) * ls = cur + ls + k * ls := by ring
          rw [List.getD_cons_succ, harith]
          exact h
    · rw [if_neg hr] at hk; simp at hk


/-- When the adaptive loop stops before exhausting the word stream, the
word at the stopping index is out of range or the stopping slot address
is a boundary. -/
theorem adaptive_stop (ls vs ve : Nat) (bnd : List Nat) :
    ∀ (words : List Nat) (cur : Nat),
      (unpack_adaptive ls vs ve bnd cur words).length < words.length →
      ¬(vs ≤ words.getD (unpack_adaptive ls vs ve bnd cur words).length 0
          ∧ words.getD (unpack_adaptive ls vs ve bnd cur words).length 0 < ve)
      ∨ (cur + (unpack_adaptive ls vs ve bnd cur words).length * ls) ∈ bnd := by
  intro words
  induction words with
  | nil => intro cur h; simp [unpack_adaptive] at h
  | cons w rest ih =>
    intro cur h
    simp only [unpack_adaptive] at h ⊢
    by_cases hr : vs ≤ w ∧ w < ve
    · rw [if_pos hr] at h ⊢
      by_cases hb : cur ∈ bnd
      · rw [if_pos hb]
        right
        simpa using hb
      · rw [if_neg hb] at h ⊢
        simp only [List.length_cons] at h ⊢
        have h' : (unpack_adaptive ls vs ve bnd (cur + ls) rest).length
            < rest.length := by omega
        have harith :
            cur + ((unpack_adaptive ls vs ve bnd (cur + ls) rest).length + 1) * ls
              = cur + ls + (unpack_adaptive ls vs ve bnd (cur + ls) rest).length * ls := by
          ring
        rw [List.getD_cons_succ, harith]
        exact ih (cur + ls) h'
    · rw [if_neg hr] at h ⊢
      left
      simpa using hr

/-- C1, counterexample: the claim says strict mode is selected exactly
when the declared size exceeds one pointer width, decoding size/width
entries.  A table declaring 16 bytes (two 8-byte pointers, more than one
pointer width, pointer-aligned, with enough words available) is instead
decoded in adaptive mode: with a first word outside the target section
it decodes 0 entries rather than 16/8 = 2. -/
theorem strict_mode_not_pointer_width :
    unpack_syscall_table ⟨"sys_call_table", 4096, 16, "OBJECT"⟩
        ⟨".text", 100, 100⟩ [0, 0, 0] 8 [] = []
    ∧ (16 : Nat) > 8 ∧ (16 : Nat) / 8 = 2 ∧ (8 : Nat) ∣ 16
    ∧ 2 ≤ ([0, 0, 0] : List Nat).length := by
  decide

/-- C1, amended: the Table Unpacker selects strict mode exactly when the
declared size exceeds 0x80 = 128 bytes; any size of at most 128 bytes
(in particular one pointer width or less) activates adaptive mode; in
strict mode exactly size/pointer-width entries are decoded. -/
theorem strict_mode_threshold (tbl : Symbol) (target : ElfSection)
    (words : List Nat) (ls : Nat) (syms : List Symbol)
    (hw : tbl.size / ls ≤ words.length) (hdvd : ls ∣ tbl.size) :
    (0x80 < tbl.size →
      (unpack_syscall_table tbl target words ls syms).length = tbl.size / ls)
    ∧ (tbl.size ≤ 0x80 →
      unpack_syscall_table tbl target words ls syms
        = unpack_adaptive ls target.vaddr (target.vaddr + target.size)
            (boundaries_of syms tbl.vaddr) tbl.vaddr words) := by
  constructor
  · intro h
    unfold unpack_syscall_table
    rw [if_pos h]
    simp only [List.length_take]
    omega
  · intro h
    unfold unpack_syscall_table
    rw [if_neg (by omega)]

/-- C1, witness: instance of `strict_mode_threshold` at a table of
declared size 0x88 = 136 bytes with 17 eight-byte words available. -/
theorem strict_mode_threshold_instance :
    (0x80 < tblStrictW.size →
      (unpack_syscall_table tblStrictW ⟨".text", 100, 100⟩ wordsW 8 []).length
        = tblStrictW.size / 8)
    ∧ (tblStrictW.size ≤ 0x80 →
      unpack_syscall_table tblStrictW ⟨".text", 100, 100⟩ wordsW 8 []
        = unpack_adaptive 8 100 (100 + 100) (boundaries_of [] tblStrictW.vaddr)
            tblStrictW.vaddr wordsW) :=
  strict_mode_threshold tblStrictW ⟨".text", 100, 100⟩ wordsW 8 []
    (by decide) (by decide)

/-- C7: in adaptive mode (declared size at most 0x80) the decoded list
is a prefix of the word stream; each decoded word lies in the target
section's range and no visited slot address is the address of a
non-function symbol other than the table itself; and when decoding stops
before the stream ends, the stopping word is out of range or the
stopping slot address is such a symbol boundary — so the result is the
longest in-range prefix not crossing a boundary. -/
theorem adaptive_mode_spec (tbl : Symbol) (target : ElfSection)
    (words : List Nat) (ls : Nat) (syms : List Symbol)
    (h : tbl.size ≤ 0x80) :
    unpack_syscall_table tbl target words ls syms
      = words.take (unpack_syscall_table tbl target words ls syms).length
    ∧ (∀ k < (unpack_syscall_table tbl target words ls syms).length,
        (target.vaddr ≤ words.getD k 0
          ∧ words.getD k 0 < target.vaddr + target.size)
        ∧ (tbl.vaddr + k * ls) ∉ boundaries_of syms tbl.vaddr)
    ∧ ((unpack_syscall_table tbl target words ls syms).length < words.length →
        ¬(target.vaddr
            ≤ words.getD (unpack_syscall_table tbl target words ls syms).length 0
          ∧ words.getD (unpack_syscall_table tbl target words ls syms).length 0
            < target.vaddr + target.size)
        ∨ (tbl.vaddr
            + (unpack_syscall_table tbl target words ls syms).length * ls)
            ∈ boundaries_of syms tbl.vaddr) := by
  have hu : unpack_syscall_table tbl target words ls syms
      = unpack_adaptive ls target.vaddr (target.vaddr + target.size)
          (boundaries_of syms tbl.vaddr) tbl.vaddr words := by
    unfold unpack_syscall_table
    rw [if_neg (by omega)]
  rw [hu]
  exact ⟨adaptive_front _ _ _ _ words tbl.vaddr,
    fun k hk => adaptive_elems _ _ _ _ words tbl.vaddr k hk,
    adaptive_stop _ _ _ _ words tbl.vaddr⟩

/-- C7, witness: instance of `adaptive_mode_spec` on a size-0 table with
an adjacent second table two slots later; the decode stops there after
two entries. -/
theorem adaptive_mode_spec_instance :
    tblAW.size ≤ 0x80
    ∧ (unpack_syscall_table tblAW ⟨".text", 100, 100⟩ [150, 160, 170] 8
          [tblAW, otherTblW]
        = [150, 160, 170].take
            (unpack_syscall_table tblAW ⟨".text", 100, 100⟩ [150, 160, 170] 8
              [tblAW, otherTblW]).length
      ∧ (∀ k < (unpack_syscall_table tblAW ⟨".text", 100, 100⟩ [150, 160, 170] 8
            [tblAW, otherTblW]).length,
          ((100 : Nat) ≤ [150, 160, 170].getD k 0
            ∧ [150, 160, 170].getD k 0 < 100 + 100)
          ∧ (tblAW.vaddr + k * 8) ∉ boundaries_of [tblAW, otherTblW] tblAW.vaddr)
      ∧ ((unpack_syscall_table tblAW ⟨".text", 100, 100⟩ [150, 160, 170] 8
            [tblAW, otherTblW]).length < ([150, 160, 170] : List Nat).length →
          ¬((100 : Nat) ≤ [150, 160, 170].getD
                (unpack_syscall_table tblAW ⟨".text", 100, 100⟩ [150, 160, 170] 8
                  [tblAW, otherTblW]).length 0
            ∧ [150, 160, 170].getD
                (unpack_syscall_table tblAW ⟨".text", 100, 100⟩ [150, 160, 170] 8
                  [tblAW, otherTblW]).length 0 < 100 + 100)
          ∨ (tblAW.vaddr
              + (unpack_syscall_table tblAW ⟨".text", 100, 100⟩ [150, 160, 170] 8
                  [tblAW, otherTblW]).length * 8)
              ∈ boundaries_of [tblAW, otherTblW] tblAW.vaddr)) :=
  ⟨by decide,
    adaptive_mode_spec tblAW ⟨".text", 100, 100⟩ [150, 160, 170] 8
      [tblAW, otherTblW] (by decide)⟩

/-! ## Helper lemmas: the collision arbiter -/

/-- A fold of dict assignments leaves keys it never writes unchanged. -/
theorem init_untouched (v : Nat) :
    ∀ (ni : List Symbol) (m : Nat → Option Symbol),
      (∀ r ∈ ni, r.vaddr ≠ v) →
      (ni.foldl (fun m s => fupd m s.vaddr s) m) v = m v := by
  intro ni
  induction ni with
  | nil => intro m _; rfl
  | cons s rest ih =>
    intro m h
    rw [List.foldl_cons]
    rw [ih (fupd m s.vaddr s) (fun r hr => h r (List.mem_cons_of_mem s hr))]
    unfold fupd
    rw [if_neg]
    intro hv
    exact h s (List.mem_cons_self s rest) (hv ▸ rfl)

/-- Pre-populating the map from the placeholder set assigns `v` its
unique placeholder. -/
theorem init_assigns (p : Symbol) (v : Nat) :
    ∀ (ni : List Symbol) (m : Nat → Option Symbol),
      p ∈ ni → p.vaddr = v → (∀ r ∈ ni, r.vaddr = v → r = p) →
      (ni.foldl (fun m s => fupd m s.vaddr s) m) v = some p := by
  intro ni
  induction ni with
  | nil => intro m hp _ _; cases hp
  | cons s rest ih =>
    intro m hp hpv huniq
    rw [List.foldl_cons]
    by_cases hrest : ∃ r ∈ rest, r.vaddr = v
    · obtain ⟨r, hr, hrv⟩ := hrest
      have hrp : r = p := huniq r (List.mem_cons_of_mem s hr) hrv
      exact ih (fupd m s.vaddr s) (hrp ▸ hr) hpv
        (fun q hq hqv => huniq q (List.mem_cons_of_mem s hq) hqv)
    · push_neg at hrest
      have hps : p = s := by
        rcases List.mem_cons.mp hp with h | h
        · exact h
        · exact absurd hpv (hrest p h)
      rw [init_untouched v rest (fupd m s.vaddr s) hrest]
      unfold fupd
      rw [if_pos (by rw [← hps, hpv]), ← hps]

/-- One arbiter step never removes the unique placeholder assigned to an
address: a colliding non-placeholder is discarded outright, and any
colliding placeholder at that address is the assigned one itself. -/
theorem arbStep_preserves (ni : List Symbol) (pref : Symbol → Symbol → Symbol)
    (seen : List Nat) (m : Nat → Option Symbol) (sym p : Symbol) (v : Nat)
    (hm : m v = some p) (hp : p ∈ ni)
    (huniq : ∀ r ∈ ni, r.vaddr = v → r = p) :
    arbStep ni pref seen m sym v = some p := by
  unfold arbStep
  by_cases hseen : sym.vaddr ∈ seen
  · rw [if_pos hseen]
    by_cases hv : sym.vaddr = v
    · rw [hv, hm]
      show (if sym = p then m
        else if p ∈ ni ∧ sym ∉ ni then m
        else fupd m v (pref sym p)) v = some p
      by_cases heq : sym = p
      · rw [if_pos heq]; exact hm
      · rw [if_neg heq]
        have hsymni : sym ∈ ni → False := fun h => heq (huniq sym h hv)
        rw [if_pos ⟨hp, hsymni⟩]
        exact hm
    · cases hms : m sym.vaddr with
      | none =>
        show fupd m sym.vaddr sym v = some p
        unfold fupd
        rw [if_neg (fun h => hv h.symm)]
        exact hm
      | some other =>
        show (if sym = other then m
          else if other ∈ ni ∧ sym ∉ ni then m
          else fupd m sym.vaddr (pref sym other)) v = some p
        by_cases heq : sym = other
        · rw [if_pos heq]; exact hm
        · rw [if_neg heq]
          by_cases hni : other ∈ ni ∧ sym ∉ ni
          · rw [if_pos hni]; exact hm
          · rw [if_neg hni]
            unfold fupd
            rw [if_neg (fun h => hv h.symm)]
            exact hm
  · rw [if_neg hseen]; exact hm

/-- The resolution fold preserves the unique placeholder assignment. -/
theorem arbFold_preserves (ni : List Symbol) (pref : Symbol → Symbol → Symbol)
    (seen : List Nat) (p : Symbol) (v : Nat)
    (hp : p ∈ ni) (huniq : ∀ r ∈ ni, r.vaddr = v → r = p) :
    ∀ (syms : List Symbol) (m : Nat → Option Symbol),
      m v = some p →
      (syms.foldl (arbStep ni pref seen) m) v = some p := by
  intro syms
  induction syms with
  | nil => intro m hm; exact hm
  | cons s rest ih =>
    intro m hm
    rw [List.foldl_cons]
    exact ih (arbStep ni pref seen m s)
      (arbStep_preserves ni pref seen m s p v hm hp huniq)

/-- C6: if a placeholder `p` (the unique placeholder at address `v`) and
a non-placeholder `s` share address `v`, which appears in the decoded
sequence, then the address-to-symbol map assigns `v` the placeholder —
for every iteration order `syms` of the symbol table, i.e. regardless of
the order in which the two symbols are encountered. -/
theorem placeholder_never_displaced (ni : List Symbol)
    (pref : Symbol → Symbol → Symbol) (seen : List Nat) (syms : List Symbol)
    (p s : Symbol) (v : Nat)
    (hp : p ∈ ni) (hpv : p.vaddr = v)
    (huniq : ∀ r ∈ ni, r.vaddr = v → r = p)
    (hs : s ∈ syms) (hsv : s.vaddr = v) (hsni : s ∉ ni)
    (hseen : v ∈ seen) :
    symbols_by_vaddr ni pref seen syms v = some p := by
  unfold symbols_by_vaddr
  exact arbFold_preserves ni pref seen p v hp huniq syms _
    (init_assigns p v ni (fun _ => none) hp hpv huniq)

/-- C6, witness: instance of `placeholder_never_displaced` where the
non-placeholder alias is iterated first. -/
theorem placeholder_never_displaced_instance :
    symbols_by_vaddr [symNiW] (fun a _ => a) [100] [aliasW, symNiW] 100
      = some symNiW :=
  placeholder_never_displaced [symNiW] (fun a _ => a) [100] [aliasW, symNiW]
    symNiW aliasW 100 (by decide) (by decide) (by decide) (by decide)
    (by decide) (by decide) (by decide)

/-- C4, counterexample: an image is supplied but its banner yields no
version, while the build tool would yield version 6.1; the claim says
the Version Detector falls back to the build tool, but the code raises
`KernelVersionError` (the `elif self.kdir` branch is only reached with
no image). -/
theorem version_no_fallback_with_vmlinux :
    (version_get (some none) (some (some (6, 1, none)))
        ⟨none, none, none⟩).1 = .error "KernelVersionError" := by
  rfl

/-- C4, amended: the Version Detector consults the build tool only when
no image is supplied (in which case a parseable build-tool version is
returned); when an image is supplied, the result is determined by the
image banner alone — a parseable banner version is returned and an
absent or unparseable banner raises `KernelVersionError` even when the
build tool could provide a version. -/
theorem version_fallback_rule (bv : Option KernelVersion)
    (mkv : Option (Option KernelVersion)) (v : KernelVersion) :
    ((version_get none (some (some v)) ⟨none, none, none⟩).1 = .ok v)
    ∧ ((version_get (some bv) mkv ⟨none, none, none⟩).1
        = match bv with
          | some w => .ok w
          | none => .error "KernelVersionError") := by
  constructor
  · rfl
  · cases bv <;> rfl

/-- C10: `clean`, `configure` and `build` each reset the cached kernel
version (so the next access re-detects it) and none of them touches the
cached syscall list; afterwards the `syscalls` property still returns
the previously extracted list, whatever a fresh extraction would
return. -/
theorem builder_preserves_syscall_cache (s : KernelState) (l : List Syscall)
    (h : s.syscalls = some l) :
    ((clean s).version = none ∧ (configure s).version = none
      ∧ (build s).version = none)
    ∧ ((clean s).syscalls = some l ∧ (configure s).syscalls = some l
      ∧ (build s).syscalls = some l)
    ∧ (∀ extracted : List Syscall,
        (syscalls_get extracted (clean s)).1 = l
        ∧ (syscalls_get extracted (configure s)).1 = l
        ∧ (syscalls_get extracted (build s)).1 = l) := by
  refine ⟨⟨rfl, rfl, rfl⟩, ⟨h, h, h⟩, ?_⟩
  intro extracted
  simp [syscalls_get, clean, configure, build, h]

/-- C10, witness: instance of `builder_preserves_syscall_cache` at a
state with both caches populated. -/
theorem builder_preserves_syscall_cache_instance :
    ((clean stateW).version = none ∧ (configure stateW).version = none
      ∧ (build stateW).version = none)
    ∧ ((clean stateW).syscalls = some [scW]
      ∧ (configure stateW).syscalls = some [scW]
      ∧ (build stateW).syscalls = some [scW])
    ∧ (∀ extracted : List Syscall,
        (syscalls_get extracted (clean stateW)).1 = [scW]
        ∧ (syscalls_get extracted (configure stateW)).1 = [scW]
        ∧ (syscalls_get extracted (build stateW)).1 = [scW]) :=
  builder_preserves_syscall_cache stateW [scW] rfl

/-! ## Helper lemmas: slot filtering and counting -/

/-- When every address resolves, the kept slots and the placeholder
slots partition the decoded sequence. -/
theorem defined_length (r : Nat → Option Symbol) (ni : List Symbol) :
    ∀ (vs : List Nat) (k : Nat),
      (∀ v ∈ vs, (r v).isSome = true) →
      (defined_symbols_from r ni k vs).length + ni_total r ni vs
        = vs.length := by
  intro vs
  induction vs with
  | nil => intro k _; simp [defined_symbols_from, ni_total]
  | cons v vs ih =>
    intro k h
    have hv : (r v).isSome = true := h v (List.mem_cons_self v vs)
    have hrest : ∀ x ∈ vs, (r x).isSome = true :=
      fun x hx => h x (List.mem_cons_of_mem v hx)
    have hv2 := ih (k + 1) hrest
    simp only [defined_symbols_from, ni_total, List.countP_cons] at hv2 ⊢
    cases hrv : r v with
    | none => rw [hrv] at hv; simp at hv
    | some s =>
      by_cases hni : s ∈ ni
      · simp [hni]
        omega
      · simp [hni]
        omega

/-- The built syscalls and the skipped slots partition the kept slots. -/
theorem build_length (E : ExtractEnv) :
    ∀ l : List (Nat × Symbol),
      (build_syscalls E l).length + n_skipped E l = l.length := by
  intro l
  induction l with
  | nil => simp [build_syscalls, n_skipped]
  | cons p rest ih =>
    obtain ⟨i, s⟩ := p
    simp only [build_syscalls, n_skipped, List.countP_cons] at ih ⊢
    by_cases hsk : E.skip (build_entry E i s) = true
    · rw [if_pos hsk, hsk]
      simp only [if_pos, List.length_cons]
      show (build_syscalls E rest).length + (List.countP _ rest + 1)
        = rest.length + 1
      omega
    · rw [if_neg hsk]
      simp only [Bool.not_eq_true] at hsk
      rw [hsk]
      simp only [List.length_cons]
      show (build_syscalls E rest).length + 1 + (List.countP _ rest + 0)
        = rest.length + 1
      omega

/-- A successful esoteric stage yields one syscall per entry. -/
theorem add_eso_length (symtab : String → Option Symbol) :
    ∀ (eso : List EsoEntry) (l : List Syscall),
      add_esoteric symtab eso = .ok l → l.length = eso.length := by
  intro eso
  induction eso with
  | nil =>
    intro l h
    simp only [add_esoteric] at h
    cases h
    rfl
  | cons t rest ih =>
    intro l h
    simp only [add_esoteric] at h
    cases hst : symtab t.symName with
    | none => rw [hst] at h; cases h
    | some sym =>
      rw [hst] at h
      cases hrec : add_esoteric symtab rest with
      | error e => rw [hrec] at h; cases h
      | ok l2 =>
        rw [hrec] at h
        cases h
        simp [ih l2 hrec]

/-- C2: for every extraction run in which each decoded address resolves
to some symbol and the esoteric stage succeeds, the number of syscalls
retained after normalization (before enrichment-based filtering) equals
the decoded-slot count minus the not-implemented-slot count minus the
architecture-skipped-slot count plus the hardcoded-entry count. -/
theorem normalized_count_invariant (E : ExtractEnv) (vaddrs : List Nat)
    (l : List Syscall)
    (h1 : ∀ v ∈ vaddrs, (resolved_map E vaddrs v).isSome = true)
    (h2 : normalized_syscalls E vaddrs = .ok l) :
    (l.length : Int)
      = (vaddrs.length : Int)
        - (ni_total (resolved_map E vaddrs) (niSet E) vaddrs : Int)
        - (n_skipped E
            (defined_symbols (resolved_map E vaddrs) (niSet E) vaddrs) : Int)
        + (E.eso.length : Int) := by
  unfold normalized_syscalls at h2
  cases he : add_esoteric E.symtab E.eso with
  | error e => rw [he] at h2; cases h2
  | ok esoScs =>
    rw [he] at h2
    cases h2
    have hA := defined_length (resolved_map E vaddrs) (niSet E) vaddrs 0 h1
    have hB := build_length E
      (defined_symbols (resolved_map E vaddrs) (niSet E) vaddrs)
    have hC := add_eso_length E.symtab E.eso esoScs he
    unfold defined_symbols at hB ⊢
    unfold table_syscalls
    unfold defined_symbols
    rw [List.length_append]
    push_cast
    omega

/-- C2, witness: instance of `normalized_count_invariant` on the
well-behaved run (3 slots, 1 placeholder slot, 0 skipped, 1 hardcoded:
2 + 1 = 3 retained). -/
theorem normalized_count_invariant_instance :
    (normW.length : Int)
      = (([100, 200, 300] : List Nat).length : Int)
        - (ni_total (resolved_map envW [100, 200, 300]) (niSet envW)
            [100, 200, 300] : Int)
        - (n_skipped envW
            (defined_symbols (resolved_map envW [100, 200, 300]) (niSet envW)
              [100, 200, 300]) : Int)
        + (envW.eso.length : Int) :=
  normalized_count_invariant envW [100, 200, 300] normW (by decide) (by rfl)

/-- C3: a concrete run in which one slot (address 999, slot index 2)
resolves to no symbol.  The slot is dropped with an error logged and the
loop continues, but the count assertion of kernel.py line 426 then fails
(1 retained ≠ 3 − 1 − 0 + 1), so the whole extraction aborts with
`AssertionError` instead of producing the other slots' syscalls. -/
theorem unresolved_slot_assertion_failure :
    extract_syscalls envW [100, 200, 999] = .error "AssertionError" := by
  rfl

/-! ## Helper lemmas: the esoteric stage and run decomposition -/

/-- If any esoteric entry's backing symbol is missing, the esoteric
stage cannot succeed. -/
theorem add_eso_not_ok (symtab : String → Option Symbol) :
    ∀ (eso : List EsoEntry) (t : EsoEntry),
      t ∈ eso → symtab t.symName = none →
      ∀ l, add_esoteric symtab eso ≠ .ok l := by
  intro eso
  induction eso with
  | nil => intro t ht; cases ht
  | cons u rest ih =>
    intro t ht hmiss l h
    simp only [add_esoteric] at h
    rcases List.mem_cons.mp ht with rfl | htr
    · simp only [hmiss] at h
      exact Except.noConfusion h
    · cases hsu : symtab u.symName with
      | none =>
        simp only [hsu] at h
        exact Except.noConfusion h
      | some sym =>
        simp only [hsu] at h
        cases hrec : add_esoteric symtab rest with
        | error e =>
          simp only [hrec] at h
          exact Except.noConfusion h
        | ok l2 => exact ih t htr hmiss l2 hrec

/-- Every successful extraction either bailed out early with an empty
result (no decoded address, or no placeholder symbol) or went through
the full pipeline: normalization, the esoteric stage, the count
assertion, enrichment and the implementation filter. -/
theorem extract_ok_decomp (E : ExtractEnv) (vaddrs : List Nat)
    (out : List Syscall) (hok : extract_syscalls E vaddrs = .ok out) :
    (vaddrs = [] ∧ out = []) ∨ (niSet E = [] ∧ out = []) ∨
    ∃ esoScs, add_esoteric E.symtab E.eso = .ok esoScs ∧
      out = implFilter E.isDummy E.matchNi
        ((table_syscalls E vaddrs ++ esoScs).map (enrichWith E.enrich)) := by
  unfold extract_syscalls at hok
  by_cases hv : vaddrs = []
  · rw [if_pos hv] at hok
    exact Or.inl ⟨hv, ((Except.ok.injEq _ _).mp hok).symm⟩
  rw [if_neg hv] at hok
  by_cases hni : niSet E = []
  · rw [if_pos hni] at hok
    exact Or.inr (Or.inl ⟨hni, ((Except.ok.injEq _ _).mp hok).symm⟩)
  rw [if_neg hni] at hok
  refine Or.inr (Or.inr ?_)
  cases hmf : most_frequent vaddrs with
  | none =>
    simp only [hmf] at hok
    exact Except.noConfusion hok
  | some mv =>
    simp only [hmf] at hok
    cases hr : resolved_map E vaddrs mv with
    | none =>
      simp only [hr] at hok
      exact Except.noConfusion hok
    | some b =>
      simp only [hr] at hok
      cases hn : normalized_syscalls E vaddrs with
      | error e =>
        simp only [hn] at hok
        exact Except.noConfusion hok
      | ok scs =>
        simp only [hn] at hok
        by_cases hA : (scs.length : Int)
            = (vaddrs.length : Int)
              - (ni_total (resolved_map E vaddrs) (niSet E) vaddrs : Int)
              - (n_skipped E
                  (defined_symbols (resolved_map E vaddrs) (niSet E)
                    vaddrs) : Int)
              + (E.eso.length : Int)
        · rw [if_pos hA] at hok
          unfold normalized_syscalls at hn
          cases he : add_esoteric E.symtab E.eso with
          | error e =>
            simp only [he] at hn
            exact Except.noConfusion hn
          | ok esoScs =>
            simp only [he] at hn
            have hscs : table_syscalls E vaddrs ++ esoScs = scs :=
              (Except.ok.injEq _ _).mp hn
            refine ⟨esoScs, rfl, ?_⟩
            rw [← (Except.ok.injEq _ _).mp hok, hscs]
        · rw [if_neg hA] at hok
          exact Except.noConfusion hok

/-- C5, counterexample: a run whose esoteric entry names a symbol
("sys_eso") absent from the symbol table, while every table slot is
fine.  The claim says the failure is fatal for that single entry only;
the code instead raises an uncaught `KeyError`, aborting the whole
extraction, and no syscall at all is produced. -/
theorem esoteric_missing_symbol_aborts :
    extract_syscalls envB [100, 200, 300] = .error "KeyError: sys_eso" := by
  rfl

/-- C5, amended: when a hardcoded/esoteric entry's backing symbol is
missing from the image's symbol table, the `KeyError` aborts the entire
extraction: no run with such an entry ever produces a nonempty syscall
list (a successful result is only possible via the early empty-result
bailouts). -/
theorem esoteric_missing_symbol_no_output (E : ExtractEnv)
    (vaddrs : List Nat) (t : EsoEntry)
    (ht : t ∈ E.eso) (hmiss : E.symtab t.symName = none)
    (l : List Syscall) (hok : extract_syscalls E vaddrs = .ok l) :
    l = [] := by
  rcases extract_ok_decomp E vaddrs l hok with ⟨_, h⟩ | ⟨_, h⟩ | ⟨esoScs, he, _⟩
  · exact h
  · exact h
  · exact absurd he (add_eso_not_ok E.symtab E.eso t ht hmiss esoScs)

/-- C5, witness: instance of `esoteric_missing_symbol_no_output` on the
broken environment; with no decoded address the run bails out with an
empty result, which is the only successful outcome possible. -/
theorem esoteric_missing_symbol_no_output_instance :
    extract_syscalls envB [] = .ok [] ∧ ([] : List Syscall) = [] :=
  ⟨rfl, esoteric_missing_symbol_no_output envB []
    ⟨5000, "eso", "sys_eso", some "int eso(int a)"⟩ (by decide) (by rfl)
    [] (by rfl)⟩

/-! ## Helper lemmas: field preservation and membership -/

/-- Enrichment never changes the esoteric flag. -/
theorem enrichWith_esoteric (e : Syscall → Enrichment) (sc : Syscall) :
    (enrichWith e sc).esoteric = sc.esoteric := by
  unfold enrichWith; split <;> rfl

/-- Enrichment never changes the slot index. -/
theorem enrichWith_idx (e : Syscall → Enrichment) (sc : Syscall) :
    (enrichWith e sc).idx = sc.idx := by
  unfold enrichWith; split <;> rfl

/-- Enrichment never changes the syscall number. -/
theorem enrichWith_num (e : Syscall → Enrichment) (sc : Syscall) :
    (enrichWith e sc).num = sc.num := by
  unfold enrichWith; split <;> rfl

/-- Enrichment never changes the syscall name. -/
theorem enrichWith_name (e : Syscall → Enrichment) (sc : Syscall) :
    (enrichWith e sc).name = sc.name := by
  unfold enrichWith; split <;> rfl

/-- Enrichment never changes the backing symbol. -/
theorem enrichWith_symbol (e : Syscall → Enrichment) (sc : Syscall) :
    (enrichWith e sc).symbol = sc.symbol := by
  unfold enrichWith; split <;> rfl

/-- Every kept slot records its original enumerate index: position `j`
of the decoded sequence, offset by the running index `k`. -/
theorem mem_defined_from (r : Nat → Option Symbol) (ni : List Symbol) :
    ∀ (vs : List Nat) (k i : Nat) (s : Symbol),
      (i, s) ∈ defined_symbols_from r ni k vs →
      ∃ j, i = k + j ∧ j < vs.length ∧ r (vs.getD j 0) = some s ∧ s ∉ ni := by
  intro vs
  induction vs with
  | nil => intro k i s h; cases h
  | cons v rest ih =>
    intro k i s h
    simp only [defined_symbols_from] at h
    cases hrv : r v with
    | none =>
      simp only [hrv] at h
      obtain ⟨j, hij, hjl, hres, hni⟩ := ih (k + 1) i s h
      refine ⟨j + 1, by omega, by simpa using hjl, ?_, hni⟩
      simpa [List.getD_cons_succ] using hres
    | some s2 =>
      simp only [hrv] at h
      by_cases hni2 : s2 ∈ ni
      · rw [if_pos hni2] at h
        obtain ⟨j, hij, hjl, hres, hni⟩ := ih (k + 1) i s h
        refine ⟨j + 1, by omega, by simpa using hjl, ?_, hni⟩
        simpa [List.getD_cons_succ] using hres
      · rw [if_neg hni2] at h
        rcases List.mem_cons.mp h with heq | h2
        · obtain ⟨hi, hs⟩ := Prod.mk.injEq .. ▸ heq
          refine ⟨0, by omega, by simp, ?_, hs ▸ hni2⟩
          simpa [hs] using hrv
        · obtain ⟨j, hij, hjl, hres, hni⟩ := ih (k + 1) i s h2
          refine ⟨j + 1, by omega, by simpa using hjl, ?_, hni⟩
          simpa [List.getD_cons_succ] using hres

/-- Every built syscall comes from a kept slot. -/
theorem mem_build (E : ExtractEnv) :
    ∀ (l : List (Nat × Symbol)) (sc : Syscall),
      sc ∈ build_syscalls E l →
      ∃ p ∈ l, sc = build_entry E p.1 p.2 := by
  intro l
  induction l with
  | nil => intro sc h; cases h
  | cons p rest ih =>
    obtain ⟨i, s⟩ := p
    intro sc h
    simp only [build_syscalls] at h
    by_cases hsk : E.skip (build_entry E i s) = true
    · rw [if_pos hsk] at h
      obtain ⟨q, hq, hsc⟩ := ih sc h
      exact ⟨q, List.mem_cons_of_mem _ hq, hsc⟩
    · rw [if_neg hsk] at h
      rcases List.mem_cons.mp h with rfl | h2
      · exact ⟨(i, s), List.mem_cons_self _ _, rfl⟩
      · obtain ⟨q, hq, hsc⟩ := ih sc h2
        exact ⟨q, List.mem_cons_of_mem _ hq, hsc⟩

/-- Every syscall produced by the esoteric stage is the verbatim record
of one entry of the architecture profile's list. -/
theorem mem_add_eso (symtab : String → Option Symbol) :
    ∀ (eso : List EsoEntry) (l : List Syscall),
      add_esoteric symtab eso = .ok l →
      ∀ sc ∈ l, ∃ t ∈ eso, ∃ sym, symtab t.symName = some sym
        ∧ sc = mk_esoteric t sym := by
  intro eso
  induction eso with
  | nil =>
    intro l h sc hsc
    simp only [add_esoteric] at h
    cases h
    cases hsc
  | cons u rest ih =>
    intro l h sc hsc
    simp only [add_esoteric] at h
    cases hsu : symtab u.symName with
    | none =>
      simp only [hsu] at h
      exact Except.noConfusion h
    | some sym =>
      simp only [hsu] at h
      cases hrec : add_esoteric symtab rest with
      | error e =>
        simp only [hrec] at h
        exact Except.noConfusion h
      | ok l2 =>
        simp only [hrec] at h
        cases h
        rcases List.mem_cons.mp hsc with rfl | h2
        · exact ⟨u, List.mem_cons_self _ _, sym, hsu, rfl⟩
        · obtain ⟨t, ht, sym2, hs2, hsc2⟩ := ih l2 hrec sc h2
          exact ⟨t, List.mem_cons_of_mem _ ht, sym2, hs2, hsc2⟩

/-- C8: in every successful extraction, each retained table-derived
(non-esoteric) syscall's number is its slot index plus the architecture
numbering base, where the slot index is the original position in the
decoded sequence (not renumbered after drops: the address at that very
position resolves to the syscall's backing symbol), and each hardcoded
entry's number and name are taken verbatim from the architecture
profile's list. -/
theorem syscall_numbering_spec (E : ExtractEnv) (vaddrs : List Nat)
    (out : List Syscall) (hok : extract_syscalls E vaddrs = .ok out) :
    ∀ sc ∈ out,
      (sc.esoteric = false →
        ∃ i, sc.idx = some i ∧ sc.num = E.base + i ∧ i < vaddrs.length
          ∧ resolved_map E vaddrs (vaddrs.getD i 0) = some sc.symbol)
      ∧ (sc.esoteric = true →
        ∃ t ∈ E.eso, sc.num = t.num ∧ sc.name = t.name) := by
  intro sc hsc
  rcases extract_ok_decomp E vaddrs out hok with ⟨_, h⟩ | ⟨_, h⟩ |
    ⟨esoScs, he, hout⟩
  · subst h; cases hsc
  · subst h; cases hsc
  · subst hout
    have hsc2 : sc ∈ (table_syscalls E vaddrs ++ esoScs).map
        (enrichWith E.enrich) := List.mem_of_mem_filter hsc
    obtain ⟨sc0, hsc0, rfl⟩ := List.mem_map.mp hsc2
    rcases List.mem_append.mp hsc0 with htab | heso
    · obtain ⟨⟨i, s⟩, hmem, rfl⟩ := mem_build E _ _ htab
      constructor
      · intro _
        obtain ⟨j, hij, hjl, hres, _⟩ :=
          mem_defined_from (resolved_map E vaddrs) (niSet E) vaddrs 0 i s hmem
        refine ⟨i, ?_, ?_, by omega, ?_⟩
        · rw [enrichWith_idx]; rfl
        · rw [enrichWith_num]; rfl
        · rw [enrichWith_symbol]
          have hji : j = i := by omega
          rw [← hji]
          exact hres
      · intro hesot
        rw [enrichWith_esoteric] at hesot
        exact Bool.noConfusion hesot
    · obtain ⟨t, ht, sym, _, rfl⟩ :=
        mem_add_eso E.symtab E.eso esoScs he sc0 heso
      constructor
      · intro hfalse
        rw [enrichWith_esoteric] at hfalse
        exact Bool.noConfusion hfalse
      · intro _
        refine ⟨t, ht, ?_, ?_⟩
        · rw [enrichWith_num]; rfl
        · rw [enrichWith_name]; rfl

/-- C8, witness: instance of `syscall_numbering_spec` on the
well-behaved run (numbers 1 and 2 for slots 1 and 2, 5000 verbatim for
the hardcoded entry). -/
theorem syscall_numbering_spec_instance :
    extract_syscalls envW [100, 200, 300] = .ok outW
    ∧ ∀ sc ∈ outW,
      (sc.esoteric = false →
        ∃ i, sc.idx = some i ∧ sc.num = envW.base + i
          ∧ i < ([100, 200, 300] : List Nat).length
          ∧ resolved_map envW [100, 200, 300]
              (([100, 200, 300] : List Nat).getD i 0) = some sc.symbol)
      ∧ (sc.esoteric = true →
        ∃ t ∈ envW.eso, sc.num = t.num ∧ sc.name = t.name) :=
  ⟨rfl, syscall_numbering_spec envW [100, 200, 300] outW rfl⟩

/-! ## Helper lemmas: slot order -/

/-- Kept slot indices are bounded below by the running index. -/
theorem defined_bound (r : Nat → Option Symbol) (ni : List Symbol)
    (vs : List Nat) (k : Nat) (p : Nat × Symbol)
    (hp : p ∈ defined_symbols_from r ni k vs) : k ≤ p.1 := by
  obtain ⟨i, s⟩ := p
  obtain ⟨j, hij, _, _, _⟩ := mem_defined_from r ni vs k i s hp
  omega

/-- Kept slots appear in strictly increasing slot order. -/
theorem defined_pairwise (r : Nat → Option Symbol) (ni : List Symbol) :
    ∀ (vs : List Nat) (k : Nat),
      List.Pairwise (fun p q : Nat × Symbol => p.1 < q.1)
        (defined_symbols_from r ni k vs) := by
  intro vs
  induction vs with
  | nil => intro k; constructor
  | cons v rest ih =>
    intro k
    simp only [defined_symbols_from]
    cases hrv : r v with
    | none => exact ih (k + 1)
    | some s =>
      show List.Pairwise (fun p q : Nat × Symbol => p.1 < q.1)
        (if s ∈ ni then defined_symbols_from r ni (k + 1) rest
         else (k, s) :: defined_symbols_from r ni (k + 1) rest)
      by_cases hni : s ∈ ni
      · rw [if_pos hni]; exact ih (k + 1)
      · rw [if_neg hni]
        refine List.Pairwise.cons ?_ (ih (k + 1))
        intro q hq
        have := defined_bound r ni rest (k + 1) q hq
        show k < q.1
        omega

/-- Building syscalls preserves the strictly increasing slot order on
the recorded indices. -/
theorem build_pairwise (E : ExtractEnv) :
    ∀ l : List (Nat × Symbol),
      List.Pairwise (fun p q : Nat × Symbol => p.1 < q.1) l →
      List.Pairwise (fun a b : Syscall => a.idx.getD 0 < b.idx.getD 0)
        (build_syscalls E l) := by
  intro l
  induction l with
  | nil => intro _; constructor
  | cons p rest ih =>
    obtain ⟨i, s⟩ := p
    intro h
    rw [List.pairwise_cons] at h
    obtain ⟨hhead, htail⟩ := h
    simp only [build_syscalls]
    by_cases hsk : E.skip (build_entry E i s) = true
    · rw [if_pos hsk]; exact ih htail
    · rw [if_neg hsk]
      refine List.Pairwise.cons ?_ (ih htail)
      intro b hb
      obtain ⟨q, hq, rfl⟩ := mem_build E rest b hb
      exact hhead q hq

/-- Esoteric syscalls always pass the implementation filter. -/
theorem keep_esoteric (isDummy : Syscall → Bool) (matchNi : String → Bool)
    (sc : Syscall) (h : sc.esoteric = true) :
    keep_syscall isDummy matchNi sc = true := by
  unfold keep_syscall
  rw [h]
  rfl

/-- C9: in every successful full run (some address decoded, some
placeholder found), the final output is the implementation-filtered
enriched table part followed by all enriched esoteric entries: the
filter's drop rules act only on non-esoteric entries, so every esoteric
entry is retained and appended at the end, while the retained table
part is non-esoteric and listed in strictly increasing slot order. -/
theorem filter_esoteric_and_order (E : ExtractEnv) (vaddrs : List Nat)
    (out : List Syscall) (hv : vaddrs ≠ []) (hni : niSet E ≠ [])
    (hok : extract_syscalls E vaddrs = .ok out) :
    ∃ esoScs, add_esoteric E.symtab E.eso = .ok esoScs ∧
      out = implFilter E.isDummy E.matchNi
              ((table_syscalls E vaddrs).map (enrichWith E.enrich))
            ++ esoScs.map (enrichWith E.enrich)
      ∧ (∀ sc ∈ esoScs.map (enrichWith E.enrich), sc.esoteric = true)
      ∧ (∀ sc ∈ implFilter E.isDummy E.matchNi
            ((table_syscalls E vaddrs).map (enrichWith E.enrich)),
          sc.esoteric = false)
      ∧ List.Pairwise (fun a b : Syscall => a.idx.getD 0 < b.idx.getD 0)
          (implFilter E.isDummy E.matchNi
            ((table_syscalls E vaddrs).map (enrichWith E.enrich))) := by
  rcases extract_ok_decomp E vaddrs out hok with ⟨h, _⟩ | ⟨h, _⟩ |
    ⟨esoScs, he, hout⟩
  · exact absurd h hv
  · exact absurd h hni
  have hesoflag : ∀ sc ∈ esoScs.map (enrichWith E.enrich),
      sc.esoteric = true := by
    intro sc hsc
    obtain ⟨sc0, hsc0, rfl⟩ := List.mem_map.mp hsc
    obtain ⟨t, ht, sym, _, rfl⟩ := mem_add_eso E.symtab E.eso esoScs he sc0 hsc0
    rw [enrichWith_esoteric]
    rfl
  refine ⟨esoScs, he, ?_, hesoflag, ?_, ?_⟩
  · rw [hout]
    unfold implFilter
    rw [List.map_append, List.filter_append]
    congr 1
    apply List.filter_eq_self.mpr
    intro a ha
    exact keep_esoteric E.isDummy E.matchNi a (hesoflag a ha)
  · intro sc hsc
    have hsc2 := List.mem_of_mem_filter hsc
    obtain ⟨sc0, hsc0, rfl⟩ := List.mem_map.mp hsc2
    obtain ⟨⟨i, s⟩, _, rfl⟩ := mem_build E _ _ hsc0
    rw [enrichWith_esoteric]
    rfl
  · have hp1 := defined_pairwise (resolved_map E vaddrs) (niSet E) vaddrs 0
    have hp2 := build_pairwise E
      (defined_symbols (resolved_map E vaddrs) (niSet E) vaddrs) hp1
    have hp3 : List.Pairwise (fun a b : Syscall => a.idx.getD 0 < b.idx.getD 0)
        ((table_syscalls E vaddrs).map (enrichWith E.enrich)) := by
      rw [List.pairwise_map]
      refine hp2.imp ?_
      intro a b hab
      rw [enrichWith_idx, enrichWith_idx]
      exact hab
    exact hp3.sublist (List.filter_sublist _)

/-- C9, witness: instance of `filter_esoteric_and_order` on the
well-behaved run. -/
theorem filter_esoteric_and_order_instance :
    extract_syscalls envW [100, 200, 300] = .ok outW
    ∧ ∃ esoScs, add_esoteric envW.symtab envW.eso = .ok esoScs ∧
      outW = implFilter envW.isDummy envW.matchNi
              ((table_syscalls envW [100, 200, 300]).map (enrichWith envW.enrich))
            ++ esoScs.map (enrichWith envW.enrich)
      ∧ (∀ sc ∈ esoScs.map (enrichWith envW.enrich), sc.esoteric = true)
      ∧ (∀ sc ∈ implFilter envW.isDummy envW.matchNi
            ((table_syscalls envW [100, 200, 300]).map (enrichWith envW.enrich)),
          sc.esoteric = false)
      ∧ List.Pairwise (fun a b : Syscall => a.idx.getD 0 < b.idx.getD 0)
          (implFilter envW.isDummy envW.matchNi
            ((table_syscalls envW [100, 200, 300]).map
              (enrichWith envW.enrich))) :=
  ⟨rfl, filter_esoteric_and_order envW [100, 200, 300] outW
    (by decide) (by decide) rfl⟩

end Systrack
